import Mathlib

/-!
Shallow embedding of the TidySameVideo pipeline
(src/jellyfin/TidySameVideo: utils.py, keyword_filter.py, context.py,
data_processor.py, task_generator.py) and proofs of the claimed properties.

Strings are modelled as `List Char`.  Python floats are modelled as `ℚ`
(the claims under scrutiny are about which comparisons and adjustments are
performed, not about binary rounding).  Filesystem state, which the Python
code reads through `os.path.exists` / `os.path.getsize` / `os.listdir`,
is modelled as an explicit read-only `FS` value: task planning performs no
writes that could affect those queries (the only write, `os.makedirs` on the
output root, concerns a strict prefix path never queried afterwards).
Global configuration (the keyword blacklist) and the optional third-party
segmentation engines are passed as explicit parameters.
-/

namespace TidySameVideo

/-! ## Character classes (Python regex character classes used by the code) -/

/-- CJK Unified Ideographs range used throughout the code. -/
def isCJKb (c : Char) : Bool := 0x4e00 ≤ c.toNat && c.toNat ≤ 0x9fa5

/-- Japanese syllabary and Hangul-compatibility ranges of context.py. -/
def isJapaneseb (c : Char) : Bool :=
  (0x3040 ≤ c.toNat && c.toNat ≤ 0x30ff) || (0x3130 ≤ c.toNat && c.toNat ≤ 0x318f)

/-- ASCII Latin letter, the regex class a-zA-Z. -/
def isLatinb (c : Char) : Bool := ('a' ≤ c && c ≤ 'z') || ('A' ≤ c && c ≤ 'Z')

/-- ASCII decimal digit. -/
def isDigitb (c : Char) : Bool := '0' ≤ c && c ≤ '9'

/-- Python whitespace as matched by the `s` regex class (ASCII part). -/
def isSpaceb (c : Char) : Bool :=
  c = ' ' || c = '\t' || c = '\n' || c = '\r' || c = '\x0b' || c = '\x0c'

/-- Shorthand to write `List Char` literals. -/
def str (s : String) : List Char := s.toList

/-! ## utils.clean_filename -/

/-- The character class retained by `clean_filename`:
CJK, ASCII letters, digits, the punctuation -_[](){}, whitespace and dots. -/
def keptChar (c : Char) : Bool :=
  isCJKb c || isLatinb c || isDigitb c ||
  c = '-' || c = '_' || c = '[' || c = ']' || c = '(' || c = ')' ||
  c = Char.ofNat 123 || c = Char.ofNat 125 || isSpaceb c || c = '.'

/-- Helper for collapsing whitespace runs: the flag records whether the
previous character was whitespace (i.e. we are inside a run that has already
emitted its single space). -/
def collapseWSAux : Bool → List Char → List Char
  | _, [] => []
  | inRun, c :: rest =>
    if isSpaceb c then
      if inRun then collapseWSAux true rest else ' ' :: collapseWSAux true rest
    else c :: collapseWSAux false rest

/-- Replace every maximal whitespace run by a single space
(the substitution of one space for each match of the whitespace-run regex). -/
def collapseWS (l : List Char) : List Char := collapseWSAux false l

/-- Drop matching characters from the right end of a list. -/
def rstripBy (p : Char → Bool) (l : List Char) : List Char :=
  (l.reverse.dropWhile p).reverse

/-- Drop matching characters from both ends of a list (Python `strip`). -/
def stripBy (p : Char → Bool) (l : List Char) : List Char :=
  rstripBy p (l.dropWhile p)

/-- utils.clean_filename: keep only the retained character class, collapse
whitespace runs to single spaces, strip outer whitespace, strip outer dots. -/
def clean_filename (filename : List Char) : List Char :=
  stripBy (fun c => c = '.') (stripBy isSpaceb (collapseWS (filename.filter keptChar)))

/-! ## keyword_filter -/

/-- Python `str.lower` restricted to its ASCII action (the blacklist entries
and keywords compared in the claims are ASCII). -/
def toLowerList (l : List Char) : List Char := l.map Char.toLower

/-- keyword_filter.load_keyword_blacklist.  The `IO` portion (opening and
JSON-decoding the configuration file) is abstracted into its outcome: `ok`
carries the decoded `keywords` list, `error` stands for any raised exception.
On success every keyword is lower-cased and collected into a set; on failure
the function logs a warning and returns the empty set. -/
def load_keyword_blacklist (readResult : Except String (List (List Char))) :
    Finset (List Char) :=
  match readResult with
  | .ok keywords => (keywords.map toLowerList).toFinset
  | .error _ => ∅

/-- keyword_filter.get_keyword_blacklist: the process-wide cache
`_keyword_blacklist` is modelled by explicit state passing.  Returns the
blacklist together with the new cache contents. -/
def get_keyword_blacklist (cache : Option (Finset (List Char)))
    (readResult : Except String (List (List Char))) :
    Finset (List Char) × Option (Finset (List Char)) :=
  match cache with
  | some bl => (bl, some bl)
  | none => (load_keyword_blacklist readResult, some (load_keyword_blacklist readResult))

/-- keyword_filter.is_blacklisted_keyword: case-insensitive membership. -/
def is_blacklisted_keyword (bl : Finset (List Char)) (keyword : List Char) : Bool :=
  decide (toLowerList keyword ∈ bl)

/-! ## Data model -/

/-- A scanned file: data_processor.scan_directory builds dicts with exactly
these fields. -/
structure FileRecord where
  path : List Char
  name : List Char
  size : Nat
  directory : List Char
deriving DecidableEq

instance : Inhabited FileRecord := ⟨⟨[], [], 0, []⟩⟩

/-! ## Path helpers (os.path, restricted to POSIX names) -/

/-- Index of the last occurrence of a character, if any. -/
def rfindIdxAux (c : Char) : List Char → ℕ → Option ℕ
  | [], _ => none
  | x :: xs, i =>
    match rfindIdxAux c xs (i + 1) with
    | some j => some j
    | none => if x = c then some i else none

/-- Python `str.rfind` returning `none` instead of -1. -/
def rfindIdx (c : Char) (l : List Char) : Option ℕ := rfindIdxAux c l 0

/-- The stem part of `os.path.splitext(p)[0]`: split at the last dot that
lies after the last separator, unless every character of the basename up to
that dot is itself a dot (leading-dot files keep their name whole). -/
def splitextStem (p : List Char) : List Char :=
  match rfindIdx '.' p with
  | none => p
  | some d =>
    let s : ℕ := match rfindIdx '/' p with
      | none => 0
      | some i => i + 1
    if s ≤ d ∧ ((p.drop s).take (d - s)).any (fun c => !(c = '.')) then p.take d else p

/-- os.path.basename for POSIX paths. -/
def basename (p : List Char) : List Char :=
  match rfindIdx '/' p with
  | none => p
  | some i => p.drop (i + 1)

/-- os.path.join for two POSIX components. -/
def joinPath (a b : List Char) : List Char :=
  if b.head? = some '/' then b
  else if a = [] then b
  else if a.getLast? = some '/' then a ++ b
  else a ++ '/' :: b

/-- utils.check_path_length with its default limit of 260 characters. -/
def check_path_length (path : List Char) (maxLength : ℕ := 260) : Bool :=
  !decide (maxLength < path.length)

/-- utils.sanitize_folder_name. -/
def sanitize_folder_name (name : List Char) : List Char :=
  let replaced := name.map (fun c =>
    if c = '<' || c = '>' || c = ':' || c = '"' || c = '/' || c = '\\' ||
       c = '|' || c = '?' || c = '*' then '_' else c)
  let noCtrl := replaced.filter (fun c => 32 ≤ c.toNat)
  let trimmed := rstripBy (fun c => c = '.' || c = ' ') noCtrl
  if trimmed = [] then str "unnamed_folder" else trimmed

/-- Character-wise longest common prefix of two lists. -/
def lcp : List Char → List Char → List Char
  | a :: as, b :: bs => if a = b then a :: lcp as bs else []
  | _, _ => []

/-- os.path.commonprefix: the longest common prefix of all the names. -/
def lcpAll : List (List Char) → List Char
  | [] => []
  | x :: xs => xs.foldl lcp x

/-- utils.generate_folder_name. -/
def generate_folder_name (file_group : List FileRecord) : List Char :=
  match file_group with
  | [] => str "unknown_group"
  | g =>
    let file_names := g.map (fun f => clean_filename (splitextStem (basename f.path)))
    let common := rstripBy (fun c => c = '-' || c = '_' || c = ' ') (lcpAll file_names)
    let folder := if 3 < common.length then common else (file_names.headD []).take 50
    sanitize_folder_name folder

/-! ## Tokenizer (context.VideoOrganizerContext._segment_text)

The tokenizer is embedded with an instrumented state that records, next to
each accepted keyword, the character span `(start, length)` whose positions
the Python code adds to `processed_positions` (and, for the final
remaining-run pass, the run the keyword was cut from).  The keyword list the
Python function returns is recovered by projecting and deduplicating. -/

/-- Character of `text` at position `i` (only queried at `i < text.length`). -/
def charAt (text : List Char) (i : ℕ) : Char := text.getD i ' '

/-- Python `text[i:i+len]`. -/
def slice (text : List Char) (sp : ℕ × ℕ) : List Char := (text.drop sp.1).take sp.2

/-- Length of the maximal run of positions satisfying `p` starting at `i`
(bounded by `n`, the text length). -/
def runLenFrom (p : ℕ → Bool) (n i : ℕ) : ℕ :=
  if h : i < n then (if p i then runLenFrom p n (i + 1) + 1 else 0) else 0
termination_by n - i

/-- The maximal runs of positions `< n` satisfying `p`, scanning from `i`:
this is the common shape of `re.finditer` over a single character class and
of the remaining-position scan of `_extract_remaining_sequences`.  In the
accepting branch the run length is at least 1, so `max _ 1` is the run
length itself; it only serves the termination checker. -/
def runsFrom (p : ℕ → Bool) (n : ℕ) (i : ℕ) : List (ℕ × ℕ) :=
  if h : i < n then
    if hp : p i = true then
      (i, runLenFrom p n i) :: runsFrom p n (i + max (runLenFrom p n i) 1)
    else runsFrom p n (i + 1)
  else []
termination_by n - i

/-- The set of character positions covered by a span. -/
def spanSet (sp : ℕ × ℕ) : Finset ℕ := Finset.Ico sp.1 (sp.1 + sp.2)

/-- Tokenizer state: accepted (keyword, span) pairs in emission order, plus
the claimed positions (`processed_positions`). -/
structure SegState where
  acc : List (List Char × ℕ × ℕ)
  processed : Finset ℕ
deriving DecidableEq

/-- Invariant maintained while positions are being claimed: the accepted
spans are pairwise disjoint, and every accepted span is claimed. -/
def SegInv (s : SegState) : Prop :=
  s.acc.Pairwise (fun a b => Disjoint (spanSet a.2) (spanSet b.2)) ∧
  ∀ e ∈ s.acc, spanSet e.2 ⊆ s.processed

/-- Accept a token with span `sp` and claim the span. -/
def segPush (s : SegState) (tok : List Char) (sp : ℕ × ℕ) : SegState :=
  ⟨s.acc ++ [(tok, sp)], s.processed ∪ spanSet sp⟩

/-- Pass 1: maximal Latin-letter runs (`re.finditer` of the Latin class);
runs of length > 1 are emitted and their spans claimed unconditionally. -/
def pass1 (text : List Char) : SegState :=
  (runsFrom (fun i => isLatinb (charAt text i)) text.length 0).foldl
    (fun s sp => if 1 < sp.2 then segPush s (slice text sp) sp else s)
    ⟨[], ∅⟩

/-- Python `text.find(word)`: index of the leftmost occurrence. -/
def firstOccur (text w : List Char) : Option ℕ :=
  (List.range (text.length + 1)).find? (fun i => decide ((text.drop i).take w.length = w))

/-- The engine-candidate acceptance loop shared by the jieba and MeCab
branches: keep a candidate iff it is longer than one character, is not a
pure Latin run, occurs in the text, and its span at the leftmost occurrence
overlaps no claimed position; then claim the span. -/
def acceptWords (text : List Char) (ws : List (List Char)) (s : SegState) : SegState :=
  ws.foldl
    (fun s w =>
      if 1 < w.length && !w.all isLatinb then
        match firstOccur text w with
        | some st =>
          if (List.range' st w.length).all (fun j => decide (j ∉ s.processed)) then
            segPush s w (st, w.length)
          else s
        | none => s
      else s)
    s

/-- context._extract_longer_sequences: scan all spans from longest (the full
text) down to length 2, left to right, and claim any fully unclaimed span
whose substring contains a CJK or Japanese character. -/
def extractLonger (text : List Char) (s : SegState) : SegState :=
  ((List.range' 2 (text.length - 1)).reverse).foldl
    (fun s len =>
      (List.range (text.length - len + 1)).foldl
        (fun s i =>
          if i ∈ s.processed then s
          else
            if (slice text (i, len)).any (fun c => isCJKb c || isJapaneseb c) then
              if (List.range' i len).all (fun j => decide (j ∉ s.processed)) then
                segPush s (slice text (i, len)) (i, len)
              else s
            else s)
        s)
    s

/-- Python `sequence.strip()` (whitespace strip). -/
def stripWhitespace (l : List Char) : List Char := stripBy isSpaceb l

/-- context._extract_remaining_sequences: each maximal run of unclaimed
positions whose stripped substring is longer than one character is emitted
(its positions are not added to `processed_positions` by the Python code;
the span recorded here is the run itself). -/
def pass4 (text : List Char) (s : SegState) : SegState :=
  { acc := s.acc ++
      ((runsFrom (fun i => decide (i ∉ s.processed)) text.length 0).filter
          (fun sp => 1 < (stripWhitespace (slice text sp)).length)).map
        (fun sp => (stripWhitespace (slice text sp), sp)),
    processed := s.processed }

/-- Availability and behavior of the optional segmentation engines.
`chinese` abstracts jieba (the concatenated search-mode and full-mode cuts);
`japanese` abstracts MeCab, a `none` result standing for a raised
exception. -/
structure SegEngines where
  chinese : Option (List Char → List (List Char))
  japanese : Option (List Char → Option (List (List Char)))

/-- Stable sort by descending keyword length (Python `sorted` with a length
key and `reverse=True`). -/
def sortByLenDesc (ws : List (List Char)) : List (List Char) :=
  ws.insertionSort (fun a b => b.length ≤ a.length)

/-- Deduplication preserving first occurrences (`dict.fromkeys`). -/
def dedupFirst : List (List Char) → List (List Char)
  | [] => []
  | w :: ws => w :: dedupFirst (ws.filter (fun x => decide (x ≠ w)))
termination_by l => l.length
decreasing_by
  simp only [List.length_cons]
  exact Nat.lt_succ_of_le (List.length_filter_le _ _)

/-- The instrumented `_segment_text`: pass 1, then the engine pass (jieba
when the text has CJK characters and jieba is available, otherwise MeCab
when the text has Japanese characters and MeCab is available, otherwise the
longest-substring fallback; a MeCab exception also falls back), then the
remaining-run pass. -/
def segmentStates (eng : SegEngines) (text : List Char) : SegState :=
  let s1 := pass1 text
  let s2 :=
    if text.any isCJKb && eng.chinese.isSome then
      acceptWords text
        (sortByLenDesc (dedupFirst ((eng.chinese.getD (fun _ => [])) text))) s1
    else if text.any isJapaneseb && eng.japanese.isSome then
      match (eng.japanese.getD (fun _ => none)) text with
      | some ws => acceptWords text (sortByLenDesc ws) s1
      | none => extractLonger text s1
    else extractLonger text s1
  pass4 text s2

/-- context._segment_text: the keyword list, deduplicated preserving order. -/
def segment_text (eng : SegEngines) (text : List Char) : List (List Char) :=
  dedupFirst ((segmentStates eng text).acc.map (fun e => e.1))

/-! ## Similarity scorer (data_processor.are_files_similar) -/

/-- data_processor.is_year_keyword: a 4-digit numeral in [1900, 2100]. -/
def digitsVal (k : List Char) : ℕ :=
  k.foldl (fun acc c => 10 * acc + (c.toNat - '0'.toNat)) 0

/-- data_processor.is_year_keyword. -/
def is_year_keyword (k : List Char) : Bool :=
  k.all isDigitb && decide (k.length = 4) &&
  decide (1900 ≤ digitsVal k) && decide (digitsVal k ≤ 2100)

/-- The near-identical shortcut: cleaned lengths differ by less than 5 and
one cleaned name is a substring of the other. -/
def nearIdentical (c1 c2 : List Char) : Bool :=
  decide (((c1.length : ℤ) - (c2.length : ℤ)).natAbs < 5) &&
  (decide (c1 <:+: c2) || decide (c2 <:+: c1))

/-- Keywords of length at least 4 that are not blacklisted. -/
def longKeywords (bl : Finset (List Char)) (kws : List (List Char)) : List (List Char) :=
  kws.filter (fun k => decide (4 ≤ k.length) && !is_blacklisted_keyword bl k)

/-- Long keywords that are additionally not year keywords. -/
def nonYearLongKeywords (bl : Finset (List Char)) (kws : List (List Char)) :
    List (List Char) :=
  (longKeywords bl kws).filter (fun k => !is_year_keyword k)

/-- All keywords that are neither year keywords nor blacklisted. -/
def nonYearKeywords (bl : Finset (List Char)) (kws : List (List Char)) :
    List (List Char) :=
  kws.filter (fun k => !is_year_keyword k && !is_blacklisted_keyword bl k)

/-- First keyword-based decision block: if both non-year long-keyword lists
are non-empty, accept on a shared keyword of length at least 8, or on shared
keywords of length at least 4 when there are at least two of them or the
keyword-set Jaccard quotient reaches one half. -/
def keywordPhase1 (nyl1 nyl2 : List (List Char)) : Bool :=
  if nyl1 = [] ∨ nyl2 = [] then false
  else
    if (nyl1.toFinset ∩ nyl2.toFinset).filter (fun kw => 8 ≤ kw.length) ≠ ∅ then true
    else
      if (nyl1.toFinset ∩ nyl2.toFinset).filter (fun kw => 4 ≤ kw.length) ≠ ∅ ∧
         (2 ≤ ((nyl1.toFinset ∩ nyl2.toFinset).filter (fun kw => 4 ≤ kw.length)).card ∨
          (nyl1.toFinset ∪ nyl2.toFinset ≠ ∅ ∧
           (1 : ℚ) / 2 ≤ ((nyl1.toFinset ∩ nyl2.toFinset).card : ℚ) /
             ((nyl1.toFinset ∪ nyl2.toFinset).card : ℚ))) then true
      else false

/-- Second keyword-based decision block: Jaccard over all non-year,
non-blacklisted keywords, applied only when one cleaned name is longer than
30 characters, against the relaxed threshold max(0.35, base - 0.1). -/
def keywordPhase2 (ny1 ny2 : List (List Char)) (len1 len2 : ℕ) (minSim : ℚ) : Bool :=
  if 0 < (ny1.toFinset ∪ ny2.toFinset).card then
    if 30 < len1 ∨ 30 < len2 then
      decide (max (35 / 100) (minSim - 1 / 10) ≤
        ((ny1.toFinset ∩ ny2.toFinset).card : ℚ) /
          ((ny1.toFinset ∪ ny2.toFinset).card : ℚ))
    else false
  else false

/-- The keyword-based portion of the cascade (the body of `if context:`),
which either returns True early or falls through to the character phase. -/
def keywordAccept (bl : Finset (List Char)) (seg : List Char → List (List Char))
    (c1 c2 : List Char) (minSim : ℚ) : Bool :=
  keywordPhase1 (nonYearLongKeywords bl (seg c1)) (nonYearLongKeywords bl (seg c2)) ||
  keywordPhase2 (nonYearKeywords bl (seg c1)) (nonYearKeywords bl (seg c2))
    c1.length c2.length minSim

/-- Delete the leftmost non-overlapping matches of the year pattern
(19 or 20 followed by two digits), exactly as the regex substitution does. -/
def stripYears : List Char → List Char
  | d1 :: d2 :: d3 :: d4 :: rest =>
    if ((d1 = '1' && d2 = '9') || (d1 = '2' && d2 = '0')) && isDigitb d3 && isDigitb d4 then
      stripYears rest
    else d1 :: stripYears (d2 :: d3 :: d4 :: rest)
  | l => l

/-- data_processor.are_files_similar.remove_year_chars: strip year-like
4-digit groups, then the characters `.`, `_`, `-`. -/
def remove_year_chars (text : List Char) : List Char :=
  (stripYears text).filter (fun c => !(c = '.' || c = '_' || c = '-'))

/-- Size of the union of the character sets of the two processed names. -/
def charUnionCard (c1 c2 : List Char) : ℕ :=
  ((remove_year_chars c1).toFinset ∪ (remove_year_chars c2).toFinset).card

/-- Character-level Jaccard quotient of the two processed names. -/
def charSimVal (c1 c2 : List Char) : ℚ :=
  (((remove_year_chars c1).toFinset ∩ (remove_year_chars c2).toFinset).card : ℚ) /
    (charUnionCard c1 c2 : ℚ)

/-- Threshold after the large-file relaxation: when the average size in MB
exceeds the size threshold, lower the threshold by 0.15 with floor 0.35. -/
def sizeAdjustedThreshold (size1 size2 : ℕ) (minSim sizeTh : ℚ) : ℚ :=
  if sizeTh < (((size1 : ℚ) + (size2 : ℚ)) / 2) / (1024 * 1024) then
    max (35 / 100) (minSim - 15 / 100)
  else minSim

/-- The CJK characters of a cleaned name. -/
def cjkChars (c : List Char) : List Char := c.filter isCJKb

/-- Shared CJK characters of the two cleaned names. -/
def cjkInterCard (c1 c2 : List Char) : ℕ :=
  ((cjkChars c1).toFinset ∩ (cjkChars c2).toFinset).card

/-- Size of the CJK character union of the two cleaned names. -/
def cjkUnionCard (c1 c2 : List Char) : ℕ :=
  ((cjkChars c1).toFinset ∪ (cjkChars c2).toFinset).card

/-- Jaccard quotient of the CJK-only character sets. -/
def cjkSimVal (c1 c2 : List Char) : ℚ :=
  (cjkInterCard c1 c2 : ℚ) / (cjkUnionCard c1 c2 : ℚ)

/-- Threshold after the CJK adjustment: very similar CJK parts (quotient
above 0.8, at least 2 shared characters) lower the threshold by 0.1 with
floor 0.4; very dissimilar CJK parts (quotient below 0.3, union larger than
3) raise it by 0.1 with ceiling 0.8. -/
def cjkAdjustedThreshold (c1 c2 : List Char) (thr : ℚ) : ℚ :=
  if c1.any isCJKb && c2.any isCJKb then
    if cjkChars c1 ≠ [] ∧ cjkChars c2 ≠ [] then
      if 0 < cjkUnionCard c1 c2 then
        if 8 / 10 < cjkSimVal c1 c2 ∧ 2 ≤ cjkInterCard c1 c2 then
          max (4 / 10) (thr - 1 / 10)
        else if cjkSimVal c1 c2 < 3 / 10 ∧ 3 < cjkUnionCard c1 c2 then
          min (8 / 10) (thr + 1 / 10)
        else thr
      else thr
    else thr
  else thr

/-- The character-level fallback phase of are_files_similar: empty character
union means not similar; otherwise compare the character Jaccard quotient
with the threshold after the size-based and CJK-based adjustments. -/
def charAccept (c1 c2 : List Char) (size1 size2 : ℕ) (minSim sizeTh : ℚ) : Bool :=
  if charUnionCard c1 c2 = 0 then false
  else
    decide (cjkAdjustedThreshold c1 c2 (sizeAdjustedThreshold size1 size2 minSim sizeTh) ≤
      charSimVal c1 c2)

/-- data_processor.are_files_similar.  `ctx` is the optional context whose
only contribution to this function is its tokenizer; `bl` is the loaded
keyword blacklist.  Default parameters as in the Python signature. -/
def are_files_similar (bl : Finset (List Char)) (ctx : Option (List Char → List (List Char)))
    (file1 file2 : FileRecord)
    (minSim : ℚ := 55 / 100) (sizeTh : ℚ := 500) : Bool :=
  if file1.directory = file2.directory then false
  else
    if nearIdentical (clean_filename (splitextStem file1.name))
        (clean_filename (splitextStem file2.name)) then true
    else
      if (match ctx with
          | some seg => keywordAccept bl seg (clean_filename (splitextStem file1.name))
              (clean_filename (splitextStem file2.name)) minSim
          | none => false) then true
      else
        charAccept (clean_filename (splitextStem file1.name))
          (clean_filename (splitextStem file2.name)) file1.size file2.size minSim sizeTh

/-! ## Grouping engine (data_processor.find_similar_file_groups)

The Python loop walks index pairs of the scanned file list, so the loop is
embedded over indices; the emitted record groups are recovered by lookup.
Sorting a group of records stably by descending size coincides with looking
up the stably sorted index group, so the final per-group sort is applied to
the looked-up records exactly as in the source. -/

/-- Cleaned stem of a file name. -/
def fileCleanName (f : FileRecord) : List Char := clean_filename (splitextStem f.name)

/-- The `non_year_long` keyword list precomputed per file by
find_similar_file_groups. -/
def nonYearLongOf (bl : Finset (List Char)) (seg : List Char → List (List Char))
    (f : FileRecord) : List (List Char) :=
  nonYearLongKeywords bl (seg (fileCleanName f))

/-- The join condition of the inner loop: similar at the relaxed threshold
0.4, and then either a shared non-year long keyword or similar at the
default threshold. -/
def groupAccept (bl : Finset (List Char)) (seg : List Char → List (List Char))
    (files : List FileRecord) (i j : ℕ) : Bool :=
  are_files_similar bl (some seg) (files.getD i default) (files.getD j default)
      (4 / 10) 500 &&
  (!decide ((nonYearLongOf bl seg (files.getD i default)).toFinset ∩
      (nonYearLongOf bl seg (files.getD j default)).toFinset = ∅) ||
   are_files_similar bl (some seg) (files.getD i default) (files.getD j default)
      (55 / 100) 500)

/-- The inner loop of find_similar_file_groups: try to join each candidate
index `j` to the current group, marking joined indices as processed. -/
def innerLoop (accept : ℕ → Bool) :
    List ℕ → List ℕ → List ℕ → List ℕ × List ℕ
  | [], group, processed => (group, processed)
  | j :: js, group, processed =>
    if j ∈ processed then innerLoop accept js group processed
    else if accept j then innerLoop accept js (group ++ [j]) (j :: processed)
    else innerLoop accept js group processed

/-- The outer loop of find_similar_file_groups: open a group at each
unprocessed index, fill it with the inner loop, and keep it when it has
more than one member. -/
def outerLoop (acc2 : ℕ → ℕ → Bool) (n : ℕ) :
    List ℕ → List ℕ → List (List ℕ)
  | [], _ => []
  | i :: is, processed =>
    if i ∈ processed then outerLoop acc2 n is processed
    else
      let r := innerLoop (acc2 i) (List.range' (i + 1) (n - (i + 1))) [i] (i :: processed)
      if 1 < r.1.length then r.1 :: outerLoop acc2 n is r.2
      else outerLoop acc2 n is r.2

/-- Index groups produced by find_similar_file_groups, in emission order,
before the per-group size sort. -/
def findSimilarGroupsIdx (bl : Finset (List Char)) (seg : List Char → List (List Char))
    (files : List FileRecord) : List (List ℕ) :=
  outerLoop (groupAccept bl seg files) files.length (List.range files.length) []

/-- data_processor.find_similar_file_groups: record groups, each sorted by
descending size (stable sort, as Python `list.sort` is stable). -/
def find_similar_file_groups (bl : Finset (List Char)) (seg : List Char → List (List Char))
    (files : List FileRecord) : List (List FileRecord) :=
  (findSimilarGroupsIdx bl seg files).map
    (fun g => (g.map (fun i => files.getD i default)).insertionSort
      (fun a b => b.size ≤ a.size))

/-! ## Task planner (task_generator) -/

/-- Read-only view of the filesystem during planning.  `pathExists` and
`getsize` model `os.path.exists` and `os.path.getsize`; `busyDirs` is the
(finite) list of directories that exist and have a non-empty listing, the
condition of the folder-collision loop. -/
structure FS where
  pathExists : List Char → Bool
  getsize : List Char → ℕ
  busyDirs : List (List Char)

/-- The kinds of conflicts produced by detect_conflicts. -/
inductive ConflictType where
  | file_exists_same_size
  | file_exists_different_size
  | task_conflict
  | path_too_long
deriving DecidableEq

/-- A planned move. -/
structure MoveTask where
  source : List Char
  target : List Char
  size : ℕ
  group_index : ℕ
  file_index : ℕ
deriving DecidableEq

/-- A rejected move. -/
structure Conflict where
  source : List Char
  target : List Char
  ctype : ConflictType
deriving DecidableEq

/-- task_generator.detect_conflicts, checks in source order: existing
target (same or different size), target already claimed by an earlier task
of the batch, path length. -/
def detect_conflicts (fs : FS) (task : MoveTask) (existing : List MoveTask) :
    Option Conflict :=
  if fs.pathExists task.target then
    if fs.getsize task.target = task.size then
      some ⟨task.source, task.target, .file_exists_same_size⟩
    else
      some ⟨task.source, task.target, .file_exists_different_size⟩
  else if existing.any (fun t => decide (t.target = task.target)) then
    some ⟨task.source, task.target, .task_conflict⟩
  else if !check_path_length task.target then
    some ⟨task.source, task.target, .path_too_long⟩
  else none

/-- Folder-name candidate number `k`: the original name for `k = 0`,
otherwise the original name suffixed with an underscore and `k`. -/
def folderCandidate (original : List Char) (k : ℕ) : List Char :=
  if k = 0 then original else original ++ '_' :: (Nat.repr k).toList

/-- The folder-collision loop, with enough fuel to exhaust `fs.busyDirs`:
the candidates are pairwise distinct names, so after `busyDirs.length + 1`
attempts at least one candidate is free and the loop below coincides with
the unbounded Python loop. -/
def resolveFolderAux (fs : FS) (original : List Char) : ℕ → ℕ → List Char
  | 0, k => folderCandidate original k
  | fuel + 1, k =>
    if folderCandidate original k ∈ fs.busyDirs then
      resolveFolderAux fs original fuel (k + 1)
    else folderCandidate original k

/-- Resolve the group folder against existing non-empty directories. -/
def resolveGroupFolder (fs : FS) (original : List Char) : List Char :=
  resolveFolderAux fs original (fs.busyDirs.length + 1) 0

/-- The move task for member `i` of group `gidx` into the resolved group
folder. -/
def makeTask (group_folder : List Char) (gidx i : ℕ) (f : FileRecord) : MoveTask :=
  { source := f.path
    target := joinPath group_folder (basename f.path)
    size := f.size
    group_index := gidx
    file_index := i }

/-- Run one candidate through detect_conflicts: rejected candidates become
conflicts, accepted ones join the batch. -/
def processCandidate (fs : FS) (acc : List MoveTask × List Conflict) (task : MoveTask) :
    List MoveTask × List Conflict :=
  match detect_conflicts fs task acc.1 with
  | some c => (acc.1, acc.2 ++ [c])
  | none => (acc.1 ++ [task], acc.2)

/-- task_generator.generate_move_tasks.  Strategy `keep_best` skips the
group member at index 0 (the largest file after the descending sort),
`move_all` takes every member, any other strategy contributes nothing. -/
def generate_move_tasks (fs : FS) (similar_groups : List (List FileRecord))
    (output_dir : List Char) (strategy : List Char := str "keep_best") :
    List MoveTask × List Conflict :=
  if similar_groups = [] then ([], [])
  else
    similar_groups.enum.foldl
      (fun acc gg =>
        let group_folder :=
          resolveGroupFolder fs (joinPath output_dir (generate_folder_name gg.2))
        if strategy = str "keep_best" then
          gg.2.enum.foldl
            (fun acc2 fi =>
              if fi.1 = 0 then acc2
              else processCandidate fs acc2 (makeTask group_folder gg.1 fi.1 fi.2))
            acc
        else if strategy = str "move_all" then
          gg.2.enum.foldl
            (fun acc2 fi => processCandidate fs acc2 (makeTask group_folder gg.1 fi.1 fi.2))
            acc
        else acc)
      ([], [])

/-! ## Spec-side definition for the fallback threshold (claim C6)

Written from the words of the specification, to be compared with the
implementation-side `cjkAdjustedThreshold ∘ sizeAdjustedThreshold`. -/

/-- The adjusted acceptance threshold as the spec describes it: if the
average file size exceeds the size threshold, the threshold becomes
max(0.35, threshold - 0.15); then, if both cleaned names contain CJK
characters and the CJK-set Jaccard quotient is above 0.8 with at least two
shared characters, the threshold becomes max(0.4, threshold - 0.1); if
instead that quotient is below 0.3 and the CJK union has more than 3
characters, the threshold becomes min(0.8, threshold + 0.1). -/
def specAdjustedThreshold (c1 c2 : List Char) (size1 size2 : ℕ)
    (minSim sizeTh : ℚ) : ℚ :=
  let afterSize :=
    if sizeTh < (((size1 : ℚ) + (size2 : ℚ)) / 2) / (1024 * 1024) then
      max (35 / 100) (minSim - 15 / 100)
    else minSim
  if c1.any isCJKb && c2.any isCJKb then
    if 8 / 10 < cjkSimVal c1 c2 ∧ 2 ≤ cjkInterCard c1 c2 then
      max (4 / 10) (afterSize - 1 / 10)
    else if cjkSimVal c1 c2 < 3 / 10 ∧ 3 < cjkUnionCard c1 c2 then
      min (8 / 10) (afterSize + 1 / 10)
    else afterSize
  else afterSize

/-! ## Invariants used by the proofs -/

/-- Planner invariant: accepted targets are pairwise distinct and none of
them exists on the filesystem. -/
def TaskInv (fs : FS) (acc : List MoveTask × List Conflict) : Prop :=
  (acc.1.map (fun t => t.target)).Nodup ∧
  ∀ t ∈ acc.1, fs.pathExists t.target = false

/-! ## Concrete fixtures used by the witnesses -/

/-- A filesystem on which no path exists and no directory is non-empty. -/
def emptyFS : FS := ⟨fun _ => false, fun _ => 0, []⟩

/-- Witness file in directory /a. -/
def wRecA : FileRecord := ⟨str "/a/AlphaBeta.mkv", str "AlphaBeta.mkv", 100, str "/a"⟩

/-- Witness file with the same name and size in directory /b. -/
def wRecB : FileRecord := ⟨str "/b/AlphaBeta.mkv", str "AlphaBeta.mkv", 100, str "/b"⟩

/-- Witness file whose name cleans to the empty string, in directory /a. -/
def wRecE1 : FileRecord := ⟨str "/a/@@@.mp4", str "@@@.mp4", 100, str "/a"⟩

/-- Witness file whose name cleans to the empty string, in directory /b. -/
def wRecE2 : FileRecord := ⟨str "/b/@@@.mp4", str "@@@.mp4", 200, str "/b"⟩

/-- Witness files for the keyword cascade: both names share the 8-character
keyword ABCDEFGH but are not near-identical (lengths differ by 5). -/
def wRecK1 : FileRecord := ⟨str "/a/ABCDEFGH.mkv", str "ABCDEFGH.mkv", 0, str "/a"⟩

/-- Second keyword-cascade witness file. -/
def wRecK2 : FileRecord :=
  ⟨str "/b/ABCDEFGHXXXXX.mkv", str "ABCDEFGHXXXXX.mkv", 0, str "/b"⟩

/-- A segmenter used by witnesses: the first 8 characters as one keyword. -/
def wSeg : List Char → List (List Char) := fun t => [t.take 8]

/-- Witness files for the character fallback: cleaned lengths differ by 5
and the names share no characters. -/
def wRecC1 : FileRecord := ⟨str "/a/ABCDE.mkv", str "ABCDE.mkv", 0, str "/a"⟩

/-- Second character-fallback witness file. -/
def wRecC2 : FileRecord := ⟨str "/b/VWXYZQRSTU.mkv", str "VWXYZQRSTU.mkv", 0, str "/b"⟩

/-- A concrete task used by the conflict-detection witness. -/
def wTask : MoveTask := ⟨str "/a/x.mkv", str "/out/g/x.mkv", 5, 0, 1⟩

/-- A second task with the same target and a different source. -/
def wTask2 : MoveTask := ⟨str "/c/x.mkv", str "/out/g/x.mkv", 7, 1, 1⟩

/-! # Theorems -/

/-! ## Claim C2: same-directory exclusion -/

/-- Claim C2: for every two FileRecords with equal `directory`,
are_files_similar returns false, regardless of names, sizes, keyword
contents or any other parameter. -/
theorem claim_C2 (bl : Finset (List Char)) (ctx : Option (List Char → List (List Char)))
    (f1 f2 : FileRecord) (minSim sizeTh : ℚ)
    (h : f1.directory = f2.directory) :
    are_files_similar bl ctx f1 f2 minSim sizeTh = false := by
  unfold are_files_similar
  rw [if_pos h]

/-- Witness for claim C2 at a concrete pair of records sharing /same. -/
theorem claim_C2_witness :
    (⟨str "/a/x.mp4", str "x.mp4", 0, str "/same"⟩ : FileRecord).directory =
      (⟨str "/b/y.mp4", str "y.mp4", 7, str "/same"⟩ : FileRecord).directory ∧
    are_files_similar ∅ none ⟨str "/a/x.mp4", str "x.mp4", 0, str "/same"⟩
      ⟨str "/b/y.mp4", str "y.mp4", 7, str "/same"⟩ (55 / 100) 500 = false :=
  ⟨rfl, claim_C2 ∅ none _ _ (55 / 100) 500 rfl⟩

/-! ## Claim C10: empty cleaned names trigger the near-identical shortcut -/

/-- Claim C10: two records in different directories whose names clean to
the empty string are always similar, via the near-identical-name shortcut,
for every context, blacklist and parameter values. -/
theorem claim_C10 (bl : Finset (List Char)) (ctx : Option (List Char → List (List Char)))
    (f1 f2 : FileRecord) (minSim sizeTh : ℚ)
    (hdir : f1.directory ≠ f2.directory)
    (h1 : clean_filename (splitextStem f1.name) = [])
    (h2 : clean_filename (splitextStem f2.name) = []) :
    are_files_similar bl ctx f1 f2 minSim sizeTh = true := by
  unfold are_files_similar
  rw [if_neg hdir, h1, h2]
  have hni : nearIdentical [] [] = true := by decide
  rw [hni]
  rfl

/-- Witness for claim C10: names of non-retained characters only. -/
theorem claim_C10_witness :
    wRecE1.directory ≠ wRecE2.directory ∧
    clean_filename (splitextStem wRecE1.name) = [] ∧
    clean_filename (splitextStem wRecE2.name) = [] ∧
    are_files_similar ∅ none wRecE1 wRecE2 (55 / 100) 500 = true :=
  ⟨by decide, by decide, by decide,
    claim_C10 ∅ none wRecE1 wRecE2 (55 / 100) 500 (by decide) (by decide) (by decide)⟩

/-! ## Claim C8: keyword blacklist loading and membership -/

/-- Claim C8: the blacklist test is a case-insensitive membership test
against the lower-cased loaded set; the cache is populated on first use and
returned unchanged afterwards; a load failure yields the empty set. -/
theorem claim_C8 :
    (∀ (kws : List (List Char)) (k : List Char),
        is_blacklisted_keyword (load_keyword_blacklist (.ok kws)) k = true ↔
          toLowerList k ∈ kws.map toLowerList) ∧
    (∀ e : String, load_keyword_blacklist (.error e) = ∅) ∧
    (∀ (b : Finset (List Char)) (r : Except String (List (List Char))),
        get_keyword_blacklist (some b) r = (b, some b)) ∧
    (∀ r : Except String (List (List Char)),
        get_keyword_blacklist none r =
          (load_keyword_blacklist r, some (load_keyword_blacklist r))) := by
  refine ⟨?_, fun _ => rfl, fun _ _ => rfl, fun _ => rfl⟩
  intro kws k
  unfold is_blacklisted_keyword load_keyword_blacklist
  simp [List.mem_toFinset]

/-! ## Claim C3: symmetry of are_files_similar -/

theorem nearIdentical_comm (a b : List Char) : nearIdentical a b = nearIdentical b a := by
  unfold nearIdentical
  rw [Bool.or_comm]
  rw [decide_eq_decide.mpr
    (show (((a.length : ℤ) - (b.length : ℤ)).natAbs < 5) ↔
        (((b.length : ℤ) - (a.length : ℤ)).natAbs < 5) by omega)]

theorem keywordPhase1_comm (a b : List (List Char)) :
    keywordPhase1 a b = keywordPhase1 b a := by
  unfold keywordPhase1
  rw [Finset.inter_comm a.toFinset b.toFinset, Finset.union_comm a.toFinset b.toFinset]
  by_cases h1 : a = [] <;> by_cases h2 : b = [] <;> simp [h1, h2]

theorem keywordPhase2_comm (a b : List (List Char)) (l1 l2 : ℕ) (m : ℚ) :
    keywordPhase2 a b l1 l2 m = keywordPhase2 b a l2 l1 m := by
  unfold keywordPhase2
  rw [Finset.inter_comm a.toFinset b.toFinset, Finset.union_comm a.toFinset b.toFinset]
  by_cases h1 : 30 < l1 <;> by_cases h2 : 30 < l2 <;> simp [h1, h2]

theorem keywordAccept_comm (bl : Finset (List Char)) (seg : List Char → List (List Char))
    (c1 c2 : List Char) (m : ℚ) :
    keywordAccept bl seg c1 c2 m = keywordAccept bl seg c2 c1 m := by
  unfold keywordAccept
  rw [keywordPhase1_comm, keywordPhase2_comm]

theorem charUnionCard_comm (c1 c2 : List Char) :
    charUnionCard c1 c2 = charUnionCard c2 c1 := by
  unfold charUnionCard
  rw [Finset.union_comm]

theorem charSimVal_comm (c1 c2 : List Char) : charSimVal c1 c2 = charSimVal c2 c1 := by
  unfold charSimVal
  rw [Finset.inter_comm, charUnionCard_comm]

theorem sizeAdjustedThreshold_comm (s1 s2 : ℕ) (m th : ℚ) :
    sizeAdjustedThreshold s1 s2 m th = sizeAdjustedThreshold s2 s1 m th := by
  unfold sizeAdjustedThreshold
  rw [add_comm (s1 : ℚ) (s2 : ℚ)]

theorem cjkInterCard_comm (c1 c2 : List Char) :
    cjkInterCard c1 c2 = cjkInterCard c2 c1 := by
  unfold cjkInterCard
  rw [Finset.inter_comm]

theorem cjkUnionCard_comm (c1 c2 : List Char) :
    cjkUnionCard c1 c2 = cjkUnionCard c2 c1 := by
  unfold cjkUnionCard
  rw [Finset.union_comm]

theorem cjkSimVal_comm (c1 c2 : List Char) : cjkSimVal c1 c2 = cjkSimVal c2 c1 := by
  unfold cjkSimVal
  rw [cjkInterCard_comm, cjkUnionCard_comm]

theorem cjkAdjustedThreshold_comm (c1 c2 : List Char) (t : ℚ) :
    cjkAdjustedThreshold c1 c2 t = cjkAdjustedThreshold c2 c1 t := by
  unfold cjkAdjustedThreshold
  rw [cjkSimVal_comm, cjkInterCard_comm, cjkUnionCard_comm,
    Bool.and_comm (c1.any isCJKb) (c2.any isCJKb)]
  by_cases h1 : cjkChars c1 = [] <;> by_cases h2 : cjkChars c2 = [] <;> simp [h1, h2]

theorem charAccept_comm (c1 c2 : List Char) (s1 s2 : ℕ) (m th : ℚ) :
    charAccept c1 c2 s1 s2 m th = charAccept c2 c1 s2 s1 m th := by
  unfold charAccept
  rw [charUnionCard_comm, charSimVal_comm, cjkAdjustedThreshold_comm,
    sizeAdjustedThreshold_comm]

/-- Claim C3: are_files_similar is symmetric in its two files, for every
context, blacklist and parameter values. -/
theorem claim_C3 (bl : Finset (List Char)) (ctx : Option (List Char → List (List Char)))
    (f1 f2 : FileRecord) (minSim sizeTh : ℚ) :
    are_files_similar bl ctx f1 f2 minSim sizeTh =
      are_files_similar bl ctx f2 f1 minSim sizeTh := by
  unfold are_files_similar
  by_cases hd : f1.directory = f2.directory
  · rw [if_pos hd, if_pos hd.symm]
  · have hd2 : ¬f2.directory = f1.directory := fun h => hd h.symm
    rw [if_neg hd, if_neg hd2]
    rw [nearIdentical_comm, charAccept_comm]
    cases ctx with
    | none => rfl
    | some seg =>
      dsimp only
      rw [keywordAccept_comm]

/-! ## Claim C5: the keyword cascade accepts on shared long keywords -/

theorem mem_nonYearLong_length {bl : Finset (List Char)} {l : List (List Char)}
    {k : List Char} (h : k ∈ (nonYearLongKeywords bl l).toFinset) : 4 ≤ k.length := by
  rw [List.mem_toFinset] at h
  unfold nonYearLongKeywords longKeywords at h
  rw [List.mem_filter] at h
  rcases h with ⟨h1, _⟩
  rw [List.mem_filter] at h1
  rcases h1 with ⟨_, h2⟩
  rw [Bool.and_eq_true, decide_eq_true_eq] at h2
  exact h2.1

theorem keywordPhase1_true_of (A B : List (List Char))
    (hmem4 : ∀ kw ∈ A.toFinset ∩ B.toFinset, 4 ≤ kw.length)
    (hne1 : A ≠ []) (hne2 : B ≠ [])
    (hcond : (∃ kw ∈ A.toFinset ∩ B.toFinset, 8 ≤ kw.length) ∨
        2 ≤ (A.toFinset ∩ B.toFinset).card ∨
        (1 : ℚ) / 2 ≤ ((A.toFinset ∩ B.toFinset).card : ℚ) /
          ((A.toFinset ∪ B.toFinset).card : ℚ)) :
    keywordPhase1 A B = true := by
  have hfilter : (A.toFinset ∩ B.toFinset).filter (fun kw => 4 ≤ kw.length) =
      A.toFinset ∩ B.toFinset := Finset.filter_true_of_mem hmem4
  have hinter : A.toFinset ∩ B.toFinset ≠ ∅ := by
    rcases hcond with h | h | h
    · rcases h with ⟨kw, hkw, _⟩
      exact fun he => absurd (he ▸ hkw) (Finset.not_mem_empty kw)
    · intro he
      rw [he, Finset.card_empty] at h
      omega
    · intro he
      rw [he] at h
      simp only [Finset.card_empty, Nat.cast_zero, zero_div] at h
      norm_num at h
  unfold keywordPhase1
  rw [if_neg (by
    rintro (h | h)
    · exact hne1 h
    · exact hne2 h)]
  by_cases h8 : (A.toFinset ∩ B.toFinset).filter (fun kw => 8 ≤ kw.length) ≠ ∅
  · rw [if_pos h8]
  · rw [if_neg h8]
    rw [if_pos]
    constructor
    · rw [hfilter]
      exact hinter
    · rcases hcond with h | h | h
      · exfalso
        apply h8
        rcases h with ⟨kw, hkw, hlen⟩
        intro he
        have hk : kw ∈ (A.toFinset ∩ B.toFinset).filter (fun kw => 8 ≤ kw.length) :=
          Finset.mem_filter.mpr ⟨hkw, hlen⟩
        exact absurd (he ▸ hk) (Finset.not_mem_empty kw)
      · left
        rw [hfilter]
        exact h
      · right
        constructor
        · intro he
          have hAne : A.toFinset ≠ ∅ := by
            intro hba
            exact hne1 ((List.toFinset_eq_empty_iff A).mp hba)
          exact hAne (Finset.union_eq_empty.mp he).1
        · exact h

/-- Claim C5: with a context present, two files in different directories
whose cleaned names are not near-identical, and whose non-year long-keyword
sets are both non-empty, are similar whenever the sets share a keyword of
length 8, or share at least two keywords, or have a Jaccard quotient of at
least one half. -/
theorem claim_C5 (bl : Finset (List Char)) (seg : List Char → List (List Char))
    (f1 f2 : FileRecord) (minSim sizeTh : ℚ)
    (hdir : f1.directory ≠ f2.directory)
    (hnear : nearIdentical (fileCleanName f1) (fileCleanName f2) = false)
    (hne1 : nonYearLongKeywords bl (seg (fileCleanName f1)) ≠ [])
    (hne2 : nonYearLongKeywords bl (seg (fileCleanName f2)) ≠ [])
    (hcond :
      (∃ kw ∈ (nonYearLongKeywords bl (seg (fileCleanName f1))).toFinset ∩
          (nonYearLongKeywords bl (seg (fileCleanName f2))).toFinset, 8 ≤ kw.length) ∨
      2 ≤ ((nonYearLongKeywords bl (seg (fileCleanName f1))).toFinset ∩
          (nonYearLongKeywords bl (seg (fileCleanName f2))).toFinset).card ∨
      (1 : ℚ) / 2 ≤
        (((nonYearLongKeywords bl (seg (fileCleanName f1))).toFinset ∩
            (nonYearLongKeywords bl (seg (fileCleanName f2))).toFinset).card : ℚ) /
        (((nonYearLongKeywords bl (seg (fileCleanName f1))).toFinset ∪
            (nonYearLongKeywords bl (seg (fileCleanName f2))).toFinset).card : ℚ)) :
    are_files_similar bl (some seg) f1 f2 minSim sizeTh = true := by
  have hph := keywordPhase1_true_of (nonYearLongKeywords bl (seg (fileCleanName f1)))
    (nonYearLongKeywords bl (seg (fileCleanName f2)))
    (fun kw hkw => mem_nonYearLong_length (Finset.mem_inter.mp hkw).1)
    hne1 hne2 hcond
  have hka : keywordAccept bl seg (clean_filename (splitextStem f1.name))
      (clean_filename (splitextStem f2.name)) minSim = true := by
    unfold keywordAccept
    rw [Bool.or_eq_true]
    left
    unfold fileCleanName at hph
    exact hph
  unfold are_files_similar
  rw [if_neg hdir]
  unfold fileCleanName at hnear
  rw [hnear, if_neg Bool.false_ne_true]
  dsimp only
  rw [hka]
  rfl

/-- Witness for claim C5: both names tokenize (under a take-8 segmenter) to
the shared 8-character keyword ABCDEFGH; the cleaned names are not
near-identical because their lengths differ by 5. -/
theorem claim_C5_witness :
    wRecK1.directory ≠ wRecK2.directory ∧
    nearIdentical (fileCleanName wRecK1) (fileCleanName wRecK2) = false ∧
    (∃ kw ∈ (nonYearLongKeywords ∅ (wSeg (fileCleanName wRecK1))).toFinset ∩
        (nonYearLongKeywords ∅ (wSeg (fileCleanName wRecK2))).toFinset, 8 ≤ kw.length) ∧
    are_files_similar ∅ (some wSeg) wRecK1 wRecK2 (55 / 100) 500 = true := by
  refine ⟨by decide, by decide, by decide, ?_⟩
  exact claim_C5 ∅ wSeg wRecK1 wRecK2 (55 / 100) 500 (by decide) (by decide)
    (by decide) (by decide) (Or.inl (by decide))

/-! ## Claim C6: the fallback phase computes the spec-described threshold -/

theorem specAdjusted_eq_impl (c1 c2 : List Char) (s1 s2 : ℕ) (m th : ℚ) :
    specAdjustedThreshold c1 c2 s1 s2 m th =
      cjkAdjustedThreshold c1 c2 (sizeAdjustedThreshold s1 s2 m th) := by
  unfold specAdjustedThreshold cjkAdjustedThreshold sizeAdjustedThreshold
  by_cases hb : (c1.any isCJKb && c2.any isCJKb) = true
  · rw [if_pos hb, if_pos hb]
    have hb12 := hb
    rw [Bool.and_eq_true] at hb12
    have hb1 : c1.any isCJKb = true := hb12.1
    have hb2 : c2.any isCJKb = true := hb12.2
    have hch1 : cjkChars c1 ≠ [] := by
      unfold cjkChars
      intro he
      rcases List.any_eq_true.mp hb1 with ⟨x, hx, hpx⟩
      exact absurd hpx (by simpa using (List.filter_eq_nil_iff.mp he) x hx)
    have hch2 : cjkChars c2 ≠ [] := by
      unfold cjkChars
      intro he
      rcases List.any_eq_true.mp hb2 with ⟨x, hx, hpx⟩
      exact absurd hpx (by simpa using (List.filter_eq_nil_iff.mp he) x hx)
    have hu : 0 < cjkUnionCard c1 c2 := by
      unfold cjkUnionCard
      apply Finset.card_pos.mpr
      rcases List.exists_mem_of_ne_nil _ hch1 with ⟨x, hx⟩
      exact ⟨x, Finset.mem_union_left _ (List.mem_toFinset.mpr hx)⟩
    conv_rhs => rw [if_pos (show cjkChars c1 ≠ [] ∧ cjkChars c2 ≠ [] from ⟨hch1, hch2⟩),
      if_pos hu]
  · rw [if_neg hb, if_neg hb]

/-- Claim C6: whenever the cascade reaches the character fallback (different
directories, not near-identical, keyword phase did not accept) and the
character union of the processed names is non-empty, are_files_similar
returns true exactly when the character-level Jaccard quotient of the
year-stripped, punctuation-stripped names reaches the threshold adjusted as
the spec describes (size relaxation, then CJK adjustment). -/
theorem claim_C6 (bl : Finset (List Char)) (ctx : Option (List Char → List (List Char)))
    (f1 f2 : FileRecord) (minSim sizeTh : ℚ)
    (hdir : f1.directory ≠ f2.directory)
    (hnear : nearIdentical (fileCleanName f1) (fileCleanName f2) = false)
    (hkw : (match ctx with
        | some seg => keywordAccept bl seg (fileCleanName f1) (fileCleanName f2) minSim
        | none => false) = false)
    (hu : charUnionCard (fileCleanName f1) (fileCleanName f2) ≠ 0) :
    are_files_similar bl ctx f1 f2 minSim sizeTh =
      decide (specAdjustedThreshold (fileCleanName f1) (fileCleanName f2)
          f1.size f2.size minSim sizeTh ≤
        charSimVal (fileCleanName f1) (fileCleanName f2)) := by
  unfold are_files_similar
  rw [if_neg hdir]
  unfold fileCleanName at hnear hkw hu ⊢
  rw [hnear, if_neg Bool.false_ne_true, hkw, if_neg Bool.false_ne_true]
  unfold charAccept
  rw [if_neg hu, specAdjusted_eq_impl]

/-- Witness for claim C6: no context, names sharing no characters with
cleaned lengths differing by 5, so the fallback is reached and the claim
instance evaluates both sides on real data. -/
theorem claim_C6_witness :
    wRecC1.directory ≠ wRecC2.directory ∧
    nearIdentical (fileCleanName wRecC1) (fileCleanName wRecC2) = false ∧
    charUnionCard (fileCleanName wRecC1) (fileCleanName wRecC2) ≠ 0 ∧
    are_files_similar ∅ none wRecC1 wRecC2 (55 / 100) 500 =
      decide (specAdjustedThreshold (fileCleanName wRecC1) (fileCleanName wRecC2)
          wRecC1.size wRecC2.size (55 / 100) 500 ≤
        charSimVal (fileCleanName wRecC1) (fileCleanName wRecC2)) := by
  refine ⟨by decide, by decide, by decide, ?_⟩
  exact claim_C6 ∅ none wRecC1 wRecC2 (55 / 100) 500 (by decide) (by decide) rfl (by decide)

/-! ## Claim C1: accepted move tasks have pairwise-distinct targets -/

theorem foldl_inv {α β : Type} (P : α → Prop) (f : α → β → α)
    (hstep : ∀ a b, P a → P (f a b)) :
    ∀ (l : List β) (a : α), P a → P (l.foldl f a) := by
  intro l
  induction l with
  | nil => exact fun a ha => ha
  | cons b bs ih => exact fun a ha => ih _ (hstep a b ha)

theorem detect_conflicts_none {fs : FS} {task : MoveTask} {existing : List MoveTask}
    (h : detect_conflicts fs task existing = none) :
    fs.pathExists task.target = false ∧ ∀ t ∈ existing, t.target ≠ task.target := by
  unfold detect_conflicts at h
  by_cases he : fs.pathExists task.target = true
  · exfalso
    rw [if_pos he] at h
    by_cases hs : fs.getsize task.target = task.size
    · rw [if_pos hs] at h
      exact Option.noConfusion h
    · rw [if_neg hs] at h
      exact Option.noConfusion h
  · constructor
    · exact Bool.not_eq_true _ ▸ Bool.eq_false_iff.mpr (fun hx => he hx)
    · intro t ht heq
      rw [if_neg he] at h
      have hany : existing.any (fun t => decide (t.target = task.target)) = true :=
        List.any_eq_true.mpr ⟨t, ht, by simp [heq]⟩
      rw [if_pos hany] at h
      exact Option.noConfusion h

theorem detect_conflicts_task_conflict (fs : FS) (task : MoveTask)
    (existing : List MoveTask)
    (hne : fs.pathExists task.target = false)
    (hmem : ∃ t ∈ existing, t.target = task.target) :
    detect_conflicts fs task existing =
      some ⟨task.source, task.target, .task_conflict⟩ := by
  unfold detect_conflicts
  rw [if_neg (by rw [hne]; exact Bool.false_ne_true)]
  rcases hmem with ⟨t, ht, heq⟩
  have hany : existing.any (fun t => decide (t.target = task.target)) = true :=
    List.any_eq_true.mpr ⟨t, ht, by simp [heq]⟩
  rw [if_pos hany]

theorem processCandidate_inv {fs : FS} {acc : List MoveTask × List Conflict}
    (task : MoveTask) (h : TaskInv fs acc) :
    TaskInv fs (processCandidate fs acc task) := by
  unfold processCandidate
  cases hd : detect_conflicts fs task acc.1 with
  | some c => exact ⟨h.1, h.2⟩
  | none =>
    rcases detect_conflicts_none hd with ⟨hp, hne⟩
    constructor
    · rw [List.map_append]
      rw [List.nodup_append]
      refine ⟨h.1, List.nodup_singleton _, ?_⟩
      intro x hx hy
      simp only [List.map_cons, List.map_nil, List.mem_singleton] at hy
      rcases List.mem_map.mp hx with ⟨t, ht, rfl⟩
      exact hne t ht hy
    · intro t ht
      rcases List.mem_append.mp ht with hmem | hmem
      · exact h.2 t hmem
      · rw [List.mem_singleton] at hmem
        rw [hmem]
        exact hp

theorem generate_move_tasks_inv (fs : FS) (groups : List (List FileRecord))
    (out strat : List Char) :
    TaskInv fs (generate_move_tasks fs groups out strat) := by
  unfold generate_move_tasks
  by_cases hg : groups = []
  · rw [if_pos hg]
    exact ⟨List.nodup_nil, by intro t ht; exact absurd ht (List.not_mem_nil t)⟩
  · rw [if_neg hg]
    apply foldl_inv (TaskInv fs)
    · intro a gg ha
      dsimp only
      by_cases h1 : strat = str "keep_best"
      · rw [if_pos h1]
        apply foldl_inv (TaskInv fs) _ _ _ _ ha
        intro a2 fi ha2
        dsimp only
        by_cases hz : fi.1 = 0
        · rw [if_pos hz]
          exact ha2
        · rw [if_neg hz]
          exact processCandidate_inv _ ha2
      · rw [if_neg h1]
        by_cases h2 : strat = str "move_all"
        · rw [if_pos h2]
          apply foldl_inv (TaskInv fs) _ _ _ _ ha
          intro a2 fi ha2
          exact processCandidate_inv _ ha2
        · rw [if_neg h2]
          exact ha
    · exact ⟨List.nodup_nil, by intro t ht; exact absurd ht (List.not_mem_nil t)⟩

/-- Claim C1: in every generated batch the accepted tasks have
pairwise-distinct targets (their target list is duplicate-free and none of
the accepted targets exists on the filesystem), and a candidate whose target
is already claimed by an accepted task — such targets never exist on the
filesystem — is rejected by detect_conflicts as a `task_conflict`. -/
theorem claim_C1 :
    (∀ (fs : FS) (groups : List (List FileRecord)) (out strat : List Char),
        ((generate_move_tasks fs groups out strat).1.map (fun t => t.target)).Nodup ∧
        ∀ t ∈ (generate_move_tasks fs groups out strat).1,
          fs.pathExists t.target = false) ∧
    (∀ (fs : FS) (task : MoveTask) (existing : List MoveTask),
        fs.pathExists task.target = false →
        (∃ t ∈ existing, t.target = task.target) →
        detect_conflicts fs task existing =
          some ⟨task.source, task.target, .task_conflict⟩) :=
  ⟨fun fs groups out strat => generate_move_tasks_inv fs groups out strat,
   fun fs task existing hne hmem => detect_conflicts_task_conflict fs task existing hne hmem⟩

/-- Witness for claim C1: a concrete batch (two identically named files)
whose accepted targets are duplicate-free, and a concrete candidate whose
target collides with an accepted task and is classified task_conflict. -/
theorem claim_C1_witness :
    ((generate_move_tasks emptyFS [[wRecA, wRecB]] (str "/out")
        (str "keep_best")).1.map (fun t => t.target)).Nodup ∧
    emptyFS.pathExists wTask2.target = false ∧
    (∃ t ∈ [wTask], t.target = wTask2.target) ∧
    detect_conflicts emptyFS wTask2 [wTask] =
      some ⟨wTask2.source, wTask2.target, .task_conflict⟩ := by
  refine ⟨(claim_C1.1 emptyFS [[wRecA, wRecB]] (str "/out") (str "keep_best")).1,
    rfl, ⟨wTask, by decide, by decide⟩, ?_⟩
  exact claim_C1.2 emptyFS wTask2 [wTask] rfl ⟨wTask, by decide, by decide⟩

/-! ## Claim C7: keep_best generates one candidate per non-best member -/

theorem processCandidate_count (fs : FS) (acc : List MoveTask × List Conflict)
    (task : MoveTask) :
    (processCandidate fs acc task).1.length + (processCandidate fs acc task).2.length =
      acc.1.length + acc.2.length + 1 := by
  unfold processCandidate
  cases detect_conflicts fs task acc.1 with
  | some c => simp only [List.length_append, List.length_singleton]; omega
  | none => simp only [List.length_append, List.length_singleton]; omega

theorem keepBestInnerCount (fs : FS) (gf : List Char) (gi : ℕ) :
    ∀ (l : List (ℕ × FileRecord)) (acc : List MoveTask × List Conflict),
      ((l.foldl (fun acc2 fi => if fi.1 = 0 then acc2
          else processCandidate fs acc2 (makeTask gf gi fi.1 fi.2)) acc).1.length +
       (l.foldl (fun acc2 fi => if fi.1 = 0 then acc2
          else processCandidate fs acc2 (makeTask gf gi fi.1 fi.2)) acc).2.length) =
      acc.1.length + acc.2.length +
        l.countP (fun fi => !decide (fi.1 = 0)) := by
  intro l
  induction l with
  | nil => intro acc; simp
  | cons fi fis ih =>
    intro acc
    rw [List.foldl_cons, List.countP_cons]
    by_cases hz : fi.1 = 0
    · rw [if_pos hz]
      have hb : (!decide (fi.1 = 0)) = false := by simp [hz]
      rw [hb, if_neg Bool.false_ne_true, ih]
      omega
    · rw [if_neg hz]
      have hb : (!decide (fi.1 = 0)) = true := by simp [hz]
      rw [hb, if_pos rfl, ih, processCandidate_count]
      omega

theorem enumFrom_countP :
    ∀ (l : List FileRecord) (k : ℕ), k ≠ 0 →
      (List.enumFrom k l).countP (fun fi => !decide (fi.1 = 0)) = l.length := by
  intro l
  induction l with
  | nil => intro k hk; rfl
  | cons a as ih =>
    intro k hk
    show ((k, a) :: List.enumFrom (k + 1) as).countP
        (fun fi => !decide (fi.1 = 0)) = as.length + 1
    rw [List.countP_cons]
    have hb : (!decide ((k, a).1 = 0)) = true := by simp [hk]
    rw [hb, if_pos rfl, ih (k + 1) (Nat.succ_ne_zero k)]

theorem enum_countP (l : List FileRecord) :
    (List.enum l).countP (fun fi => !decide (fi.1 = 0)) = l.length - 1 := by
  cases l with
  | nil => rfl
  | cons a as =>
    show ((0, a) :: List.enumFrom 1 as).countP
        (fun fi => !decide (fi.1 = 0)) = (a :: as).length - 1
    rw [List.countP_cons]
    have hb : (!decide ((0, a).1 = 0)) = false := by simp
    rw [hb, if_neg Bool.false_ne_true, enumFrom_countP as 1 one_ne_zero]
    simp

theorem keepBestOuterCount (fs : FS) (out : List Char) :
    ∀ (l : List (ℕ × List FileRecord)) (acc : List MoveTask × List Conflict),
      ((l.foldl (fun acc gg =>
          gg.2.enum.foldl (fun acc2 fi => if fi.1 = 0 then acc2
            else processCandidate fs acc2
              (makeTask (resolveGroupFolder fs (joinPath out (generate_folder_name gg.2)))
                gg.1 fi.1 fi.2)) acc) acc).1.length +
       (l.foldl (fun acc gg =>
          gg.2.enum.foldl (fun acc2 fi => if fi.1 = 0 then acc2
            else processCandidate fs acc2
              (makeTask (resolveGroupFolder fs (joinPath out (generate_folder_name gg.2)))
                gg.1 fi.1 fi.2)) acc) acc).2.length) =
      acc.1.length + acc.2.length + (l.map (fun gg => gg.2.length - 1)).sum := by
  intro l
  induction l with
  | nil => intro acc; simp
  | cons gg ggs ih =>
    intro acc
    rw [List.foldl_cons, ih, keepBestInnerCount, enum_countP]
    simp only [List.map_cons, List.sum_cons]
    omega

/-- Claim C7: under keep_best every group member except index 0 yields one
candidate, each landing in the task list or the conflict list (so the two
lengths sum to the number of non-best members); and for the concrete
two-member group of identically named, identically sized files on an empty
filesystem, exactly one task (moving the non-largest file) and zero
conflicts are produced. -/
theorem claim_C7 :
    (∀ (fs : FS) (groups : List (List FileRecord)) (out : List Char),
        (generate_move_tasks fs groups out (str "keep_best")).1.length +
          (generate_move_tasks fs groups out (str "keep_best")).2.length =
        (groups.map (fun g => g.length - 1)).sum) ∧
    (generate_move_tasks emptyFS [[wRecA, wRecB]] (str "/out")
        (str "keep_best")).1.map (fun t => t.source) = [wRecB.path] ∧
    (generate_move_tasks emptyFS [[wRecA, wRecB]] (str "/out")
        (str "keep_best")).2 = [] := by
  refine ⟨?_, by decide, by decide⟩
  intro fs groups out
  unfold generate_move_tasks
  by_cases hg : groups = []
  · rw [if_pos hg, hg]
    rfl
  · rw [if_neg hg]
    simp only [eq_self_iff_true, if_true]
    rw [keepBestOuterCount fs out groups.enum ([], [])]
    simp only [List.length_nil, Nat.zero_add]
    have hmap : groups.enum.map (fun gg => gg.2.length - 1) =
        groups.map (fun g => g.length - 1) := by
      rw [show (fun gg : ℕ × List FileRecord => gg.2.length - 1) =
        (fun g : List FileRecord => g.length - 1) ∘ Prod.snd from rfl]
      rw [← List.map_map, List.enum_map_snd]
    rw [hmap]

/-! ## Claim C4: grouping invariants -/

theorem innerLoop_spec (accept : ℕ → Bool) :
    ∀ (js group processed : List ℕ),
      (∀ x ∈ group, x ∈ processed) → group.Nodup →
      (∀ x ∈ (innerLoop accept js group processed).1,
          x ∈ (innerLoop accept js group processed).2) ∧
      (innerLoop accept js group processed).1.Nodup ∧
      (∀ x ∈ processed, x ∈ (innerLoop accept js group processed).2) ∧
      (∀ x ∈ (innerLoop accept js group processed).1, x ∈ group ∨ x ∉ processed) := by
  intro js
  induction js with
  | nil =>
    intro group processed hsub hnd
    exact ⟨hsub, hnd, fun x hx => hx, fun x hx => Or.inl hx⟩
  | cons j js ih =>
    intro group processed hsub hnd
    by_cases hjp : j ∈ processed
    · simp only [innerLoop, if_pos hjp]
      exact ih group processed hsub hnd
    · by_cases hacc : accept j = true
      · simp only [innerLoop, if_neg hjp, if_pos hacc]
        have hjg : j ∉ group := fun hj => hjp (hsub j hj)
        have hsub2 : ∀ x ∈ group ++ [j], x ∈ j :: processed := by
          intro x hx
          rcases List.mem_append.mp hx with hx | hx
          · exact List.mem_cons_of_mem _ (hsub x hx)
          · rw [List.mem_singleton] at hx
            rw [hx]
            exact List.mem_cons_self _ _
        have hnd2 : (group ++ [j]).Nodup := by
          rw [List.nodup_append]
          refine ⟨hnd, List.nodup_singleton j, ?_⟩
          intro x hx hy
          rw [List.mem_singleton] at hy
          exact hjg (hy ▸ hx)
        rcases ih (group ++ [j]) (j :: processed) hsub2 hnd2 with ⟨h1, h2, h3, h4⟩
        refine ⟨h1, h2, fun x hx => h3 x (List.mem_cons_of_mem _ hx), ?_⟩
        intro x hx
        rcases h4 x hx with hg | hnp
        · rcases List.mem_append.mp hg with hg | hg
          · exact Or.inl hg
          · rw [List.mem_singleton] at hg
            right
            rw [hg]
            exact hjp
        · right
          exact fun hxp => hnp (List.mem_cons_of_mem _ hxp)
      · simp only [innerLoop, if_neg hjp, if_neg hacc]
        exact ih group processed hsub hnd

theorem outerLoop_spec (acc2 : ℕ → ℕ → Bool) (n : ℕ) :
    ∀ (is processed : List ℕ),
      (∀ g ∈ outerLoop acc2 n is processed,
          1 < g.length ∧ g.Nodup ∧ ∀ x ∈ g, x ∉ processed) ∧
      (outerLoop acc2 n is processed).Pairwise List.Disjoint := by
  intro is
  induction is with
  | nil =>
    intro processed
    exact ⟨fun g hg => absurd hg (List.not_mem_nil g), List.Pairwise.nil⟩
  | cons i is ih =>
    intro processed
    by_cases hip : i ∈ processed
    · simp only [outerLoop, if_pos hip]
      exact ih processed
    · simp only [outerLoop, if_neg hip]
      rcases innerLoop_spec (acc2 i) (List.range' (i + 1) (n - (i + 1))) [i] (i :: processed)
        (by
          intro x hx
          rw [List.mem_singleton] at hx
          rw [hx]
          exact List.mem_cons_self _ _)
        (List.nodup_singleton i) with ⟨h1, h2, h3, h4⟩
      rcases ih (innerLoop (acc2 i) (List.range' (i + 1) (n - (i + 1))) [i]
        (i :: processed)).2 with ⟨ihA, ihB⟩
      by_cases hlen : 1 < (innerLoop (acc2 i) (List.range' (i + 1) (n - (i + 1))) [i]
          (i :: processed)).1.length
      · rw [if_pos hlen]
        constructor
        · intro g hg
          rcases List.mem_cons.mp hg with rfl | hg
          · refine ⟨hlen, h2, ?_⟩
            intro x hx hxp
            rcases h4 x hx with hxi | hnp
            · rw [List.mem_singleton] at hxi
              exact hip (hxi ▸ hxp)
            · exact hnp (List.mem_cons_of_mem _ hxp)
          · rcases ihA g hg with ⟨hga, hgb, hgc⟩
            exact ⟨hga, hgb, fun x hx hxp => hgc x hx (h3 x (List.mem_cons_of_mem _ hxp))⟩
        · refine List.pairwise_cons.mpr ⟨?_, ihB⟩
          intro g hg x hxr hxg
          exact (ihA g hg).2.2 x hxg (h1 x hxr)
      · rw [if_neg hlen]
        constructor
        · intro g hg
          rcases ihA g hg with ⟨hga, hgb, hgc⟩
          exact ⟨hga, hgb, fun x hx hxp => hgc x hx (h3 x (List.mem_cons_of_mem _ hxp))⟩
        · exact ihB

/-- Claim C4: after grouping, the index groups are pairwise disjoint (no
input position joins two groups), and every emitted record group has at
least two members and is sorted by descending size (largest first). -/
theorem claim_C4 (bl : Finset (List Char)) (seg : List Char → List (List Char))
    (files : List FileRecord) :
    (findSimilarGroupsIdx bl seg files).Pairwise List.Disjoint ∧
    ∀ g ∈ find_similar_file_groups bl seg files,
      2 ≤ g.length ∧ List.Sorted (fun a b : FileRecord => b.size ≤ a.size) g := by
  constructor
  · exact (outerLoop_spec (groupAccept bl seg files) files.length
      (List.range files.length) []).2
  · intro g hg
    rcases List.mem_map.mp hg with ⟨gi, hgi, rfl⟩
    constructor
    · rw [List.length_insertionSort, List.length_map]
      have hl := ((outerLoop_spec (groupAccept bl seg files) files.length
        (List.range files.length) []).1 gi hgi).1
      omega
    · haveI : IsTotal FileRecord (fun a b => b.size ≤ a.size) :=
        ⟨fun a b => le_total b.size a.size⟩
      haveI : IsTrans FileRecord (fun a b => b.size ≤ a.size) :=
        ⟨fun _ _ _ hab hbc => le_trans hbc hab⟩
      exact List.sorted_insertionSort _ _

/-- Witness for claim C4: a concrete two-file scan in which one group is
emitted, with the larger file first. -/
theorem claim_C4_witness :
    [wRecE2, wRecE1] ∈ find_similar_file_groups ∅ (fun _ => []) [wRecE1, wRecE2] ∧
    2 ≤ ([wRecE2, wRecE1] : List FileRecord).length ∧
    List.Sorted (fun a b : FileRecord => b.size ≤ a.size) [wRecE2, wRecE1] := by
  refine ⟨by decide, ?_⟩
  exact (claim_C4 ∅ (fun _ => []) [wRecE1, wRecE2]).2 [wRecE2, wRecE1] (by decide)

/-! ## Claim C9: the tokenizer claims every position at most once -/

theorem runLenFrom_pos {p : ℕ → Bool} {n i : ℕ} (h : i < n) (hp : p i = true) :
    0 < runLenFrom p n i := by
  rw [runLenFrom]
  simp [h, hp]

theorem runLenFrom_sat {p : ℕ → Bool} {n : ℕ} (i j : ℕ) (hij : i ≤ j)
    (hj : j < i + runLenFrom p n i) : p j = true := by
  rw [runLenFrom] at hj
  by_cases h : i < n
  · rw [dif_pos h] at hj
    by_cases hp : p i = true
    · rw [if_pos hp] at hj
      rcases Nat.eq_or_lt_of_le hij with rfl | hlt
      · exact hp
      · exact @runLenFrom_sat p n (i + 1) j hlt (by omega)
    · rw [if_neg hp] at hj
      omega
  · rw [dif_neg h] at hj
    omega
termination_by n - i

theorem runsFrom_start {p : ℕ → Bool} {n : ℕ} (i : ℕ) (sp : ℕ × ℕ)
    (hm : sp ∈ runsFrom p n i) : i ≤ sp.1 := by
  rw [runsFrom] at hm
  by_cases h : i < n
  · rw [dif_pos h] at hm
    by_cases hp : p i = true
    · rw [dif_pos hp] at hm
      rcases List.mem_cons.mp hm with rfl | hm
      · exact le_refl _
      · have h1 := runsFrom_start _ sp hm
        omega
    · rw [dif_neg hp] at hm
      have := runsFrom_start _ sp hm
      omega
  · rw [dif_neg h] at hm
    simp at hm
termination_by n - i
decreasing_by
  · omega
  · omega

theorem runsFrom_sat {p : ℕ → Bool} {n : ℕ} (i : ℕ) (sp : ℕ × ℕ)
    (hm : sp ∈ runsFrom p n i) :
    ∀ j, sp.1 ≤ j → j < sp.1 + sp.2 → p j = true := by
  rw [runsFrom] at hm
  by_cases h : i < n
  · rw [dif_pos h] at hm
    by_cases hp : p i = true
    · rw [dif_pos hp] at hm
      rcases List.mem_cons.mp hm with rfl | hm
      · exact fun j h1 h2 => runLenFrom_sat i j h1 h2
      · exact runsFrom_sat _ sp hm
    · rw [dif_neg hp] at hm
      exact runsFrom_sat _ sp hm
  · rw [dif_neg h] at hm
    simp at hm
termination_by n - i
decreasing_by
  · omega
  · omega

theorem runsFrom_ordered {p : ℕ → Bool} {n : ℕ} (i : ℕ) :
    (runsFrom p n i).Pairwise (fun a b => a.1 + a.2 ≤ b.1) := by
  rw [runsFrom]
  by_cases h : i < n
  · rw [dif_pos h]
    by_cases hp : p i = true
    · rw [dif_pos hp]
      refine List.pairwise_cons.mpr ⟨?_, runsFrom_ordered _⟩
      intro sp hm
      have h1 := runsFrom_start _ sp hm
      have h2 := runLenFrom_pos h hp
      simp only
      omega
    · rw [dif_neg hp]
      exact runsFrom_ordered _
  · rw [dif_neg h]
    exact List.Pairwise.nil
termination_by n - i
decreasing_by
  · omega
  · omega

theorem mem_spanSet {a : ℕ} {sp : ℕ × ℕ} :
    a ∈ spanSet sp ↔ sp.1 ≤ a ∧ a < sp.1 + sp.2 := Finset.mem_Ico

theorem mem_range'_iff {m s n : ℕ} : m ∈ List.range' s n ↔ s ≤ m ∧ m < s + n := by
  rw [List.mem_range']
  constructor
  · rintro ⟨i, hi, rfl⟩
    omega
  · intro h
    exact ⟨m - s, by omega, by omega⟩

theorem ordered_disjoint {a b : ℕ × ℕ} (h : a.1 + a.2 ≤ b.1) :
    Disjoint (spanSet a) (spanSet b) := by
  rw [Finset.disjoint_left]
  intro x hxa hxb
  rw [mem_spanSet] at hxa hxb
  omega

theorem segPush_inv {s : SegState} (tok : List Char) (sp : ℕ × ℕ)
    (h : SegInv s) (hd : Disjoint (spanSet sp) s.processed) :
    SegInv (segPush s tok sp) := by
  constructor
  · rw [segPush, List.pairwise_append]
    refine ⟨h.1, List.pairwise_singleton _ _, ?_⟩
    intro a ha b hb
    rw [List.mem_singleton] at hb
    rw [hb]
    rw [Finset.disjoint_left]
    intro x hxa hxs
    exact (Finset.disjoint_left.mp hd) hxs (h.2 a ha hxa)
  · intro e he
    rw [segPush] at he ⊢
    rcases List.mem_append.mp he with he | he
    · exact (h.2 e he).trans Finset.subset_union_left
    · rw [List.mem_singleton] at he
      rw [he]
      exact Finset.subset_union_right

theorem allCheck_disjoint {s : SegState} {st len : ℕ}
    (hall : (List.range' st len).all (fun j => decide (j ∉ s.processed)) = true) :
    Disjoint (spanSet (st, len)) s.processed := by
  rw [Finset.disjoint_left]
  intro x hx hxs
  rw [mem_spanSet] at hx
  have hxr : x ∈ List.range' st len := mem_range'_iff.mpr (by
    simp only at hx
    omega)
  have := List.all_eq_true.mp hall x hxr
  rw [decide_eq_true_eq] at this
  exact this hxs

theorem acceptWords_inv (text : List Char) (ws : List (List Char)) (s : SegState)
    (h : SegInv s) : SegInv (acceptWords text ws s) := by
  unfold acceptWords
  apply foldl_inv SegInv _ _ _ _ h
  intro a w ha
  dsimp only
  by_cases hc : (1 < w.length && !w.all isLatinb) = true
  · rw [if_pos hc]
    cases hocc : firstOccur text w with
    | none => exact ha
    | some st =>
      dsimp only
      by_cases hall : (List.range' st w.length).all (fun j => decide (j ∉ a.processed)) = true
      · rw [if_pos hall]
        exact segPush_inv _ _ ha (allCheck_disjoint hall)
      · rw [if_neg hall]
        exact ha
  · rw [if_neg hc]
    exact ha

theorem extractLonger_inv (text : List Char) (s : SegState)
    (h : SegInv s) : SegInv (extractLonger text s) := by
  unfold extractLonger
  apply foldl_inv SegInv _ _ _ _ h
  intro a len ha
  dsimp only
  apply foldl_inv SegInv _ _ _ _ ha
  intro b i hb
  dsimp only
  by_cases hip : i ∈ b.processed
  · rw [if_pos hip]
    exact hb
  · rw [if_neg hip]
    by_cases hcjk : (slice text (i, len)).any (fun c => isCJKb c || isJapaneseb c) = true
    · rw [if_pos hcjk]
      by_cases hall : (List.range' i len).all (fun j => decide (j ∉ b.processed)) = true
      · rw [if_pos hall]
        exact segPush_inv _ _ hb (allCheck_disjoint hall)
      · rw [if_neg hall]
        exact hb
    · rw [if_neg hcjk]
      exact hb

theorem pass1_fold_inv (text : List Char) :
    ∀ (runs : List (ℕ × ℕ)) (s : SegState),
      SegInv s →
      runs.Pairwise (fun a b => Disjoint (spanSet a) (spanSet b)) →
      (∀ sp ∈ runs, Disjoint (spanSet sp) s.processed) →
      SegInv (runs.foldl
        (fun s sp => if 1 < sp.2 then segPush s (slice text sp) sp else s) s) := by
  intro runs
  induction runs with
  | nil => exact fun s hs _ _ => hs
  | cons sp rps ih =>
    intro s hs hpw hdj
    rw [List.foldl_cons]
    have hpw2 := List.pairwise_cons.mp hpw
    by_cases hl : 1 < sp.2
    · rw [if_pos hl]
      apply ih _ (segPush_inv _ _ hs (hdj sp (List.mem_cons_self _ _))) hpw2.2
      intro sp2 hsp2
      rw [segPush]
      rw [Finset.disjoint_union_right]
      exact ⟨hdj sp2 (List.mem_cons_of_mem _ hsp2), (hpw2.1 sp2 hsp2).symm⟩
    · rw [if_neg hl]
      exact ih _ hs hpw2.2 (fun sp2 hsp2 => hdj sp2 (List.mem_cons_of_mem _ hsp2))

theorem pass1_inv (text : List Char) : SegInv (pass1 text) := by
  unfold pass1
  apply pass1_fold_inv
  · exact ⟨List.Pairwise.nil, fun e he => absurd he (List.not_mem_nil e)⟩
  · exact List.Pairwise.imp ordered_disjoint (runsFrom_ordered 0)
  · intro sp _
    exact Finset.disjoint_empty_right _

theorem pass4_spans (text : List Char) (s : SegState) (h : SegInv s) :
    ((pass4 text s).acc.map (fun e => e.2)).Pairwise
      (fun a b => Disjoint (spanSet a) (spanSet b)) := by
  have hnew : ∀ sp ∈ runsFrom (fun i => decide (i ∉ s.processed)) text.length 0,
      ∀ x ∈ spanSet sp, x ∉ s.processed := by
    intro sp hsp x hx
    rw [mem_spanSet] at hx
    have := runsFrom_sat 0 sp hsp x hx.1 hx.2
    rw [decide_eq_true_eq] at this
    exact this
  unfold pass4
  rw [List.map_append, List.pairwise_append]
  refine ⟨List.pairwise_map.mpr h.1, ?_, ?_⟩
  · rw [List.map_map, List.pairwise_map]
    refine List.Pairwise.imp ?_ (List.Pairwise.filter _ (runsFrom_ordered 0))
    intro a b hab
    exact ordered_disjoint hab
  · intro a ha b hb
    rcases List.mem_map.mp ha with ⟨e, he, rfl⟩
    rcases List.mem_map.mp hb with ⟨e2, he2, rfl⟩
    rcases List.mem_map.mp he2 with ⟨sp, hsp, rfl⟩
    rw [Finset.disjoint_left]
    intro x hxa hxb
    have hmem := h.2 e he hxa
    exact hnew sp (List.mem_of_mem_filter hsp) x hxb hmem

/-- Claim C9: for every engine configuration and input text, the spans
recorded for the accepted tokens of the tokenizer — across the Latin-run
pass, the engine pass, the longest-substring fallback and the remaining-run
pass — are pairwise disjoint: no character position is claimed twice. -/
theorem claim_C9 (eng : SegEngines) (text : List Char) :
    ((segmentStates eng text).acc.map (fun e => e.2)).Pairwise
      (fun a b => Disjoint (spanSet a) (spanSet b)) := by
  unfold segmentStates
  apply pass4_spans
  by_cases hc : (text.any isCJKb && eng.chinese.isSome) = true
  · rw [if_pos hc]
    exact acceptWords_inv _ _ _ (pass1_inv text)
  · rw [if_neg hc]
    by_cases hj : (text.any isJapaneseb && eng.japanese.isSome) = true
    · rw [if_pos hj]
      cases (eng.japanese.getD (fun _ => none)) text with
      | some ws => exact acceptWords_inv _ _ _ (pass1_inv text)
      | none => exact extractLonger_inv _ _ (pass1_inv text)
    · rw [if_neg hj]
      exact extractLonger_inv _ _ (pass1_inv text)

end TidySameVideo
